import Mathlib

/-!
Verification of the transformation engine of the OneClickFullWidthFormatter
repository (file Full_Width_Formatter.py and its earlier revision).

The Python code is shallowly embedded: Python strings become lists of
characters, byte buffers become lists of naturals, fallible external
collaborators become explicit parameters, and the unbounded retry loop of
the path resolver is given explicit fuel.
-/

/-- The full-width space character U+3000 used as the indentation marker. -/
def FW : Char := '　'

/-- Python str.isspace for a single character: the exact set of code points
for which CPython reports whitespace. -/
def pyIsSpace (c : Char) : Bool :=
  let n := c.toNat
  (0x9 ≤ n && n ≤ 0xd) || (0x1c ≤ n && n ≤ 0x1f) || n = 0x20 || n = 0x85 ||
    n = 0xa0 || n = 0x1680 || (0x2000 ≤ n && n ≤ 0x200a) || n = 0x2028 ||
    n = 0x2029 || n = 0x202f || n = 0x205f || n = 0x3000

/-- The code points at which Python str.splitlines breaks a line
(the two-character sequence CR LF is handled separately). -/
def isLineBreak (c : Char) : Bool :=
  let n := c.toNat
  (0xa ≤ n && n ≤ 0xd) || (0x1c ≤ n && n ≤ 0x1e) || n = 0x85 ||
    n = 0x2028 || n = 0x2029

/-- Python text.splitlines(keepends=True): split into lines, each line
keeping its terminator; CR LF counts as a single terminator. -/
def splitLinesKE : List Char → List (List Char)
  | [] => []
  | c :: cs =>
    if isLineBreak c then
      if c = '\r' then
        match cs with
        | '\n' :: cs2 => ['\r', '\n'] :: splitLinesKE cs2
        | [] => ['\r'] :: []
        | c2 :: cs2 => ['\r'] :: splitLinesKE (c2 :: cs2)
      else [c] :: splitLinesKE cs
    else
      match splitLinesKE cs with
      | [] => [c] :: []
      | l :: ls => (c :: l) :: ls

/-- The terminator test of transform_line: endswith CRLF, then LF, then CR,
else no terminator.  Returns the pair (core, eol). -/
def splitCoreEol (l : List Char) : List Char × List Char :=
  match l.reverse with
  | [] => (l, [])
  | c :: r =>
    if c = '\n' then
      match r with
      | c2 :: r2 => if c2 = '\r' then (r2.reverse, ['\r', '\n']) else (r.reverse, ['\n'])
      | [] => (r.reverse, ['\n'])
    else if c = '\r' then (r.reverse, ['\r'])
    else (l, [])

/-- The characters stripped by core.lstrip(" \t"). -/
def isSpTab (c : Char) : Bool := c = ' ' || c = '\t'

/-- Python core.lstrip(" \t"): drop leading ASCII spaces and tabs. -/
def lstripSpTab (l : List Char) : List Char :=
  l.dropWhile isSpTab

/-- Python core.startswith(FW2): the first two characters are both U+3000. -/
def startsWithFW2 : List Char → Bool
  | c1 :: c2 :: _ => c1 == FW && c2 == FW
  | _ => false

/-- The per-line transform shared by process_text_lines and
process_txt_file: separate the terminator, leave whitespace-only cores and
cores that already start with the marker unchanged, otherwise strip leading
ASCII space and tab and prepend two full-width spaces. -/
def transform_line (line : List Char) : List Char :=
  let ce := splitCoreEol line
  let core := ce.1
  let eol := ce.2
  if core.all pyIsSpace then core ++ eol
  else if startsWithFW2 core then core ++ eol
  else FW :: FW :: (lstripSpTab core ++ eol)

/-- process_text_lines: split into lines keeping terminators, transform each
line, and concatenate. -/
def process_text_lines (text : List Char) : List Char :=
  if text = [] then text
  else ((splitLinesKE text).map transform_line).flatten

example : process_text_lines "Hello\r\n\r\nWorld\n".data =
    "　　Hello\r\n\r\n　　World\n".data := by decide

example : process_text_lines " \t abc\n".data = "　　abc\n".data := by decide

example : process_text_lines "　　abc".data = "　　abc".data := by decide

/-! ### Structure of splitCoreEol -/

theorem sce_append_crlf (y : List Char) :
    splitCoreEol (y ++ ['\r', '\n']) = (y, ['\r', '\n']) := by
  have h : (y ++ ['\r', '\n']).reverse = '\n' :: '\r' :: y.reverse := by simp
  unfold splitCoreEol
  rw [h]
  simp

theorem sce_append_cr (y : List Char) :
    splitCoreEol (y ++ ['\r']) = (y, ['\r']) := by
  have h : (y ++ ['\r']).reverse = '\r' :: y.reverse := by simp
  unfold splitCoreEol
  rw [h]
  simp [show ('\r' : Char) ≠ '\n' from by decide]

theorem sce_append_lf (y : List Char) (hy : y.getLast? ≠ some '\r') :
    splitCoreEol (y ++ ['\n']) = (y, ['\n']) := by
  have h : (y ++ ['\n']).reverse = '\n' :: y.reverse := by simp
  unfold splitCoreEol
  rw [h]
  rcases hr : y.reverse with _ | ⟨c2, r2⟩
  · have : y = [] := by simpa using congrArg List.reverse hr
    simp [this]
  · have hc2 : ¬ (c2 = '\r') := by
      intro h2
      apply hy
      rw [← List.head?_reverse, hr, h2]
      rfl
    have hyr : r2.reverse ++ [c2] = y := by
      have := congrArg List.reverse hr
      simpa using this.symm
    simp [hc2, hyr]

theorem sce_no_term (l : List Char) (h1 : l.getLast? ≠ some '\n')
    (h2 : l.getLast? ≠ some '\r') : splitCoreEol l = (l, []) := by
  unfold splitCoreEol
  rcases hr : l.reverse with _ | ⟨c, r⟩
  · rfl
  · have hcn : ¬ (c = '\n') := by
      intro hh
      exact h1 (by rw [← List.head?_reverse, hr, hh]; rfl)
    have hcr : ¬ (c = '\r') := by
      intro hh
      exact h2 (by rw [← List.head?_reverse, hr, hh]; rfl)
    simp [hcn, hcr]

/-- Complete case analysis of splitCoreEol: either no terminator is found
(and the line ends in neither LF nor CR), or the line decomposes as core
plus one of the three terminators. -/
theorem sce_spec (l : List Char) :
    (splitCoreEol l = (l, []) ∧ l.getLast? ≠ some '\n' ∧ l.getLast? ≠ some '\r') ∨
    (∃ y, l = y ++ ['\r', '\n'] ∧ splitCoreEol l = (y, ['\r', '\n'])) ∨
    (∃ y, l = y ++ ['\n'] ∧ y.getLast? ≠ some '\r' ∧ splitCoreEol l = (y, ['\n'])) ∨
    (∃ y, l = y ++ ['\r'] ∧ splitCoreEol l = (y, ['\r'])) := by
  rcases hr : l.reverse with _ | ⟨c, r⟩
  · left
    have hl : l = [] := by simpa using congrArg List.reverse hr
    subst hl
    exact ⟨rfl, by simp, by simp⟩
  · have hl : l = r.reverse ++ [c] := by
      have := congrArg List.reverse hr
      simpa using this
    by_cases hcn : c = '\n'
    · subst hcn
      rcases hr2 : r with _ | ⟨c2, r2⟩
      · right; right; left
        refine ⟨[], by simpa [hr2] using hl, by simp, ?_⟩
        have : l = [] ++ ['\n'] := by simpa [hr2] using hl
        rw [this]
        exact sce_append_lf [] (by simp)
      · by_cases hc2 : c2 = '\r'
        · right; left
          refine ⟨r2.reverse, ?_, ?_⟩
          · rw [hl, hr2, hc2]
            simp
          · have hl2 : l = r2.reverse ++ ['\r', '\n'] := by
              rw [hl, hr2, hc2]; simp
            rw [hl2]
            exact sce_append_crlf _
        · right; right; left
          refine ⟨r.reverse, by rw [hl], ?_, ?_⟩
          · rw [List.getLast?_reverse, hr2]
            simp
            intro hh
            exact hc2 hh
          · rw [hl]
            refine sce_append_lf _ ?_
            rw [List.getLast?_reverse, hr2]
            simp
            intro hh
            exact hc2 hh
    · by_cases hcr : c = '\r'
      · subst hcr
        right; right; right
        exact ⟨r.reverse, by rw [hl], by rw [hl]; exact sce_append_cr _⟩
      · left
        have hlast : l.getLast? = some c := by
          rw [← List.head?_reverse, hr]
          rfl
        refine ⟨sce_no_term l ?_ ?_, ?_, ?_⟩ <;>
          rw [hlast] <;> simp [hcn, hcr]

theorem sce_join (l : List Char) :
    (splitCoreEol l).1 ++ (splitCoreEol l).2 = l := by
  rcases sce_spec l with ⟨h, _, _⟩ | ⟨y, hy, h⟩ | ⟨y, hy, _, h⟩ | ⟨y, hy, h⟩
  · rw [h]; simp
  · rw [h, ← hy]
  · rw [h, ← hy]
  · rw [h, ← hy]

/-! ### Branch analysis of transform_line -/

/-- The three branches of transform_line: either the line is returned
unchanged (whitespace-only core, or core already marked), or the marker is
prepended to the stripped core and the terminator is kept. -/
theorem transform_line_eq (l : List Char) :
    (transform_line l = l ∧
      ((splitCoreEol l).1.all pyIsSpace = true ∨
        startsWithFW2 (splitCoreEol l).1 = true)) ∨
    (transform_line l =
        (FW :: FW :: lstripSpTab (splitCoreEol l).1) ++ (splitCoreEol l).2 ∧
      (splitCoreEol l).1.all pyIsSpace = false ∧
      startsWithFW2 (splitCoreEol l).1 = false) := by
  unfold transform_line
  by_cases h1 : (splitCoreEol l).1.all pyIsSpace
  · left
    exact ⟨by simp [h1, sce_join], Or.inl h1⟩
  · by_cases h2 : startsWithFW2 (splitCoreEol l).1
    · left
      exact ⟨by simp [h1, h2, sce_join], Or.inr h2⟩
    · right
      exact ⟨by simp [h1, h2], by simpa using h1, by simpa using h2⟩

theorem lstrip_getLast? (x : List Char) :
    lstripSpTab x = [] ∨ (lstripSpTab x).getLast? = x.getLast? := by
  rcases h : lstripSpTab x with _ | ⟨z, zs⟩
  · exact Or.inl rfl
  · right
    conv_rhs => rw [← List.takeWhile_append_dropWhile (p := isSpTab) (l := x)]
    rw [List.getLast?_append]
    have : (List.dropWhile isSpTab x).getLast? = (z :: zs).getLast? := by
      rw [show List.dropWhile isSpTab x = z :: zs from h]
    rw [show x.dropWhile isSpTab = z :: zs from h]
    cases hzz : (z :: zs).getLast? with
    | none => simp at hzz
    | some a => simp [hzz]

theorem lastMarked_ne (x : List Char) {a : Char} (hn : x.getLast? ≠ some a)
    (hFW : FW ≠ a) : (FW :: FW :: lstripSpTab x).getLast? ≠ some a := by
  rcases lstrip_getLast? x with h | h
  · rw [h]
    simpa using fun hh => hFW hh
  · rcases he : lstripSpTab x with _ | ⟨z, zs⟩
    · simpa using fun hh => hFW hh
    · rw [List.getLast?_cons_cons, List.getLast?_cons_cons, ← he, h]
      exact hn

/-- After the marker is prepended, the terminator splits off exactly as
before: the transformed line has the same core and terminator partition. -/
theorem sce_transformed (l : List Char) :
    splitCoreEol ((FW :: FW :: lstripSpTab (splitCoreEol l).1) ++ (splitCoreEol l).2) =
      (FW :: FW :: lstripSpTab (splitCoreEol l).1, (splitCoreEol l).2) := by
  rcases sce_spec l with ⟨h, hn, hr⟩ | ⟨y, hy, h⟩ | ⟨y, hy, hcr, h⟩ | ⟨y, hy, h⟩
  · rw [h]
    simp only [List.append_nil]
    exact sce_no_term _ (lastMarked_ne l hn (by decide)) (lastMarked_ne l hr (by decide))
  · rw [h]
    exact sce_append_crlf _
  · rw [h]
    exact sce_append_lf _ (lastMarked_ne y hcr (by decide))
  · rw [h]
    exact sce_append_cr _

/-- The transform never changes the terminator of a line. -/
theorem transform_line_eol (l : List Char) :
    (splitCoreEol (transform_line l)).2 = (splitCoreEol l).2 := by
  rcases transform_line_eq l with ⟨h, _⟩ | ⟨h, _, _⟩
  · rw [h]
  · rw [h, sce_transformed l]

/-- The per-line transform is idempotent on every input. -/
theorem transform_line_idem (l : List Char) :
    transform_line (transform_line l) = transform_line l := by
  rcases transform_line_eq l with ⟨h, _⟩ | ⟨h, _, _⟩
  · rw [h]
    exact h
  · rw [h]
    unfold transform_line
    rw [sce_transformed l]
    by_cases h1 : (FW :: FW :: lstripSpTab (splitCoreEol l).1).all pyIsSpace
    · simp [h1]
    · have h2 : startsWithFW2 (FW :: FW :: lstripSpTab (splitCoreEol l).1) = true := by
        simp [startsWithFW2]
      simp [h1, h2]

/-! ### Well-formed line lists produced by splitLinesKE -/

/-- A chunk of text containing no line-break character. -/
def breakFree (l : List Char) : Prop := ∀ c ∈ l, isLineBreak c = false

/-- A valid line terminator: CR LF or a single break character. -/
def TermOK (t : List Char) : Prop :=
  t = ['\r', '\n'] ∨ ∃ c, isLineBreak c = true ∧ t = [c]

/-- The first line of the list starts with a line-feed character. -/
def startsLF : List (List Char) → Prop
  | (c :: _) :: _ => c = '\n'
  | _ => False

/-- Well-formed output of splitLinesKE: every line is break-free content
followed by a terminator (the last line may omit it), and a line ending in
a bare CR is never followed by a line starting with LF. -/
inductive LinesWF : List (List Char) → Prop
  | nil : LinesWF []
  | single (content : List Char) (hne : content ≠ []) (hbf : breakFree content) :
      LinesWF [content]
  | cons (content term : List Char) (rest : List (List Char))
      (hbf : breakFree content) (ht : TermOK term)
      (hcr : term = ['\r'] → ¬ startsLF rest) (hrest : LinesWF rest) :
      LinesWF ((content ++ term) :: rest)

theorem splitKE_crlf (cs : List Char) :
    splitLinesKE ('\r' :: '\n' :: cs) = ['\r', '\n'] :: splitLinesKE cs := by
  simp [splitLinesKE, show isLineBreak '\r' = true from by decide]

theorem splitKE_break {c : Char} {cs : List Char} (hb : isLineBreak c = true)
    (hne : c = '\r' → ∀ t, cs ≠ '\n' :: t) :
    splitLinesKE (c :: cs) = [c] :: splitLinesKE cs := by
  by_cases hc : c = '\r'
  · subst hc
    rcases cs with _ | ⟨c2, cs2⟩
    · simp [splitLinesKE, hb]
    · have hc2 : ¬ (c2 = '\n') := by
        intro h2
        exact hne rfl cs2 (by rw [h2])
      simp [splitLinesKE, hb, hc2]
  · rw [splitLinesKE.eq_def]
    simp [hb, hc]

theorem splitKE_nonbreak_nil {c : Char} {cs : List Char}
    (hb : isLineBreak c = false) (h : splitLinesKE cs = []) :
    splitLinesKE (c :: cs) = [[c]] := by
  rw [splitLinesKE.eq_def]
  simp [hb, h]

theorem splitKE_nonbreak_cons {c : Char} {cs : List Char} {l : List Char}
    {ls : List (List Char)} (hb : isLineBreak c = false)
    (h : splitLinesKE cs = l :: ls) :
    splitLinesKE (c :: cs) = (c :: l) :: ls := by
  rw [splitLinesKE.eq_def]
  simp [hb, h]

/-- The first line returned for a nonempty input starts with the first
input character. -/
theorem splitLinesKE_cons_head (c : Char) (cs : List Char) :
    ∃ t ls, splitLinesKE (c :: cs) = (c :: t) :: ls := by
  by_cases hb : isLineBreak c = true
  · by_cases hc : c = '\r'
    · subst hc
      rcases cs with _ | ⟨c2, cs2⟩
      · exact ⟨[], splitLinesKE [], splitKE_break hb (by intro _ t h; cases h)⟩
      · by_cases hc2 : c2 = '\n'
        · subst hc2
          exact ⟨['\n'], splitLinesKE cs2, splitKE_crlf cs2⟩
        · refine ⟨[], splitLinesKE (c2 :: cs2), splitKE_break hb ?_⟩
          intro _ t h
          injection h with h1 _
          exact hc2 h1
    · exact ⟨[], splitLinesKE cs, splitKE_break hb (fun h => absurd h hc)⟩
  · have hb' : isLineBreak c = false := by simpa using hb
    rcases h : splitLinesKE cs with _ | ⟨l, ls⟩
    · exact ⟨[], [], splitKE_nonbreak_nil hb' h⟩
    · exact ⟨l, ls, splitKE_nonbreak_cons hb' h⟩

theorem startsLF_splitKE {cs : List Char} (h : startsLF (splitLinesKE cs)) :
    ∃ t, cs = '\n' :: t := by
  rcases cs with _ | ⟨c, cs'⟩
  · simp [splitLinesKE, startsLF] at h
  · obtain ⟨t, ls, ht⟩ := splitLinesKE_cons_head c cs'
    rw [ht] at h
    simp only [startsLF] at h
    exact ⟨cs', by rw [h]⟩

theorem linesWF_splitKE (s : List Char) : LinesWF (splitLinesKE s) := by
  induction s using splitLinesKE.induct with
  | case1 =>
    exact LinesWF.nil
  | case2 cs2 hb ih =>
    rw [splitKE_crlf]
    refine LinesWF.cons [] ['\r', '\n'] _ ?_ (Or.inl rfl) ?_ ih
    · intro c hc
      simp at hc
    · intro h
      simp at h
  | case3 hb =>
    have hrw : splitLinesKE ['\r'] = [['\r']] := by
      rw [splitLinesKE.eq_def]
      simp [hb]
    rw [hrw]
    refine LinesWF.cons [] ['\r'] [] ?_ (Or.inr ⟨'\r', hb, rfl⟩) ?_ LinesWF.nil
    · intro c hc
      simp at hc
    · intro _ h
      simp [startsLF] at h
  | case4 c2 cs2 hne hb ih =>
    have hrw := @splitKE_break '\r' (c2 :: cs2) hb (by
      intro _ t h
      injection h with h1 _
      exact hne h1)
    rw [hrw]
    refine LinesWF.cons [] ['\r'] _ ?_ (Or.inr ⟨'\r', hb, rfl⟩) ?_ ih
    · intro c hc
      simp at hc
    · intro _ hLF
      obtain ⟨t, ht⟩ := startsLF_splitKE hLF
      injection ht with h1 _
      exact hne h1
  | case5 c cs hb hcr ih =>
    rw [splitKE_break hb (fun h => absurd h hcr)]
    refine LinesWF.cons [] [c] _ ?_ (Or.inr ⟨c, hb, rfl⟩) ?_ ih
    · intro d hd
      simp at hd
    · intro hterm hLF
      injection hterm with h1 _
      exact hcr h1
  | case6 c cs hb hnil ih =>
    rw [splitKE_nonbreak_nil (by simpa using hb) hnil]
    refine LinesWF.single [c] (by simp) ?_
    intro d hd
    simp at hd
    subst hd
    simpa using hb
  | case7 c cs hb l ls hcons ih =>
    rw [splitKE_nonbreak_cons (by simpa using hb) hcons]
    rw [hcons] at ih
    cases ih with
    | single _ hne hbf =>
      refine LinesWF.single (c :: l) (by simp) ?_
      intro d hd
      rcases List.mem_cons.mp hd with h | h
      · subst h
        simpa using hb
      · exact hbf d h
    | cons content term _ hbf ht hcr hrest =>
      have heq : c :: (content ++ term) = (c :: content) ++ term := rfl
      rw [heq]
      refine LinesWF.cons (c :: content) term ls ?_ ht hcr hrest
      intro d hd
      rcases List.mem_cons.mp hd with h | h
      · subst h
        simpa using hb
      · exact hbf d h

/-- A nonempty break-free chunk is a single line for the splitter. -/
theorem splitKE_breakFree (content : List Char) (hne : content ≠ [])
    (hbf : breakFree content) : splitLinesKE content = [content] := by
  induction content with
  | nil => exact absurd rfl hne
  | cons a rest ih =>
    have ha : isLineBreak a = false := hbf a (by simp)
    rcases rest with _ | ⟨b, t⟩
    · exact splitKE_nonbreak_nil ha rfl
    · have hbf' : breakFree (b :: t) := fun d hd => hbf d (List.mem_cons_of_mem _ hd)
      exact splitKE_nonbreak_cons ha (ih (by simp) hbf')

/-- Splitting a full line followed by further text peels off exactly that
line, provided a bare-CR line is not followed by a LF. -/
theorem splitKE_chunk (content term X : List Char) (hbf : breakFree content)
    (ht : TermOK term) (hside : term = ['\r'] → ∀ t, X ≠ '\n' :: t) :
    splitLinesKE (content ++ (term ++ X)) = (content ++ term) :: splitLinesKE X := by
  induction content with
  | nil =>
    simp only [List.nil_append]
    rcases ht with h | ⟨c, hc, h⟩
    · subst h
      simpa using splitKE_crlf X
    · subst h
      simpa using splitKE_break hc (fun hcr t => hside (by rw [hcr]) t)
  | cons a content' ih =>
    have ha : isLineBreak a = false := hbf a (by simp)
    have hbf' : breakFree content' := fun d hd => hbf d (List.mem_cons_of_mem _ hd)
    have hrec := ih hbf'
    simp only [List.cons_append]
    exact splitKE_nonbreak_cons ha hrec

theorem flatten_startsLF {ls : List (List Char)} (h : LinesWF ls) {t : List Char}
    (hLF : ls.flatten = '\n' :: t) : startsLF ls := by
  cases h with
  | nil => simp at hLF
  | single content hne hbf =>
    rcases content with _ | ⟨c, cc⟩
    · exact absurd rfl hne
    · simp only [List.flatten_cons, List.flatten_nil, List.append_nil] at hLF
      injection hLF with h1 _
  | cons content term rest hbf ht hcr hrest =>
    rcases content with _ | ⟨c, cc⟩
    · rcases ht with h' | ⟨z, hz, h'⟩
      · subst h'
        simp only [List.nil_append, List.flatten_cons, List.cons_append] at hLF
        injection hLF with h1 _
      · subst h'
        simp only [List.nil_append, List.flatten_cons, List.cons_append] at hLF
        injection hLF with h1 _
    · simp only [List.flatten_cons, List.cons_append] at hLF
      injection hLF with h1 _

/-! ### The transform preserves well-formed line lists -/

theorem isLineBreak_isSpTab {c : Char} (hc : isLineBreak c = true) :
    isSpTab c = false := by
  by_cases h1 : c = ' '
  · subst h1
    exact absurd hc (by decide)
  · by_cases h2 : c = '\t'
    · subst h2
      exact absurd hc (by decide)
    · simp [isSpTab, h1, h2]

theorem breakFree_lstrip {x : List Char} (hbf : breakFree x) :
    breakFree (lstripSpTab x) :=
  fun d hd => hbf d ((List.dropWhile_sublist isSpTab).subset hd)

theorem breakFree_getLast {x : List Char} (hbf : breakFree x) {a : Char}
    (ha : isLineBreak a = true) : x.getLast? ≠ some a := by
  intro h
  obtain ⟨ys, rfl⟩ := List.getLast?_eq_some_iff.mp h
  have := hbf a (by simp)
  rw [this] at ha
  cases ha

theorem lstrip_append_single {c : Char} (hc : isSpTab c = false) (x : List Char) :
    lstripSpTab (x ++ [c]) = lstripSpTab x ++ [c] := by
  unfold lstripSpTab
  rw [List.dropWhile_append]
  by_cases h : (x.dropWhile isSpTab).isEmpty
  · rw [if_pos h]
    rw [List.isEmpty_iff] at h
    simp [h, List.dropWhile_cons, hc]
  · rw [if_neg h]

/-- Transforming a terminated line keeps the terminator and yields
break-free content. -/
theorem transform_line_chunk (content term : List Char) (hbf : breakFree content)
    (ht : TermOK term) :
    ∃ content', breakFree content' ∧
      transform_line (content ++ term) = content' ++ term := by
  have hsce : splitCoreEol (content ++ term) = (content, term) ∨
      (splitCoreEol (content ++ term) = (content ++ term, []) ∧
        ∃ c, isLineBreak c = true ∧ isSpTab c = false ∧ term = [c]) := by
    rcases ht with h | ⟨c, hc, h⟩
    · subst h
      exact Or.inl (sce_append_crlf content)
    · subst h
      by_cases hn : c = '\n'
      · subst hn
        exact Or.inl (sce_append_lf content (breakFree_getLast hbf (by decide)))
      · by_cases hr : c = '\r'
        · subst hr
          exact Or.inl (sce_append_cr content)
        · refine Or.inr ⟨?_, c, hc, isLineBreak_isSpTab hc, rfl⟩
          refine sce_no_term _ ?_ ?_ <;> rw [List.getLast?_concat] <;>
            simp [hn, hr]
  rcases transform_line_eq (content ++ term) with ⟨h, _⟩ | ⟨h, _, _⟩
  · exact ⟨content, hbf, h⟩
  · rcases hsce with hs | ⟨hs, c, hc, hsp, hterm⟩
    · rw [hs] at h
      refine ⟨FW :: FW :: lstripSpTab content, ?_, by simpa using h⟩
      intro d hd
      rcases List.mem_cons.mp hd with h1 | h1
      · subst h1
        decide
      · rcases List.mem_cons.mp h1 with h2 | h2
        · subst h2
          decide
        · exact breakFree_lstrip hbf d h2
    · subst hterm
      rw [hs] at h
      simp only [List.append_nil] at h
      rw [lstrip_append_single hsp] at h
      refine ⟨FW :: FW :: lstripSpTab content, ?_, by simpa using h⟩
      intro d hd
      rcases List.mem_cons.mp hd with h1 | h1
      · subst h1
        decide
      · rcases List.mem_cons.mp h1 with h2 | h2
        · subst h2
          decide
        · exact breakFree_lstrip hbf d h2

/-- Transforming an unterminated, break-free, nonempty line yields an
unterminated, break-free, nonempty line. -/
theorem transform_line_single (content : List Char) (hne : content ≠ [])
    (hbf : breakFree content) :
    transform_line content ≠ [] ∧ breakFree (transform_line content) := by
  rcases transform_line_eq content with ⟨h, _⟩ | ⟨h, _, _⟩
  · rw [h]
    exact ⟨hne, hbf⟩
  · rw [h]
    refine ⟨by simp, ?_⟩
    intro d hd
    rcases List.mem_cons.mp hd with h1 | h1
    · subst h1
      decide
    · rcases List.mem_cons.mp h1 with h2 | h2
      · subst h2
        decide
      · rcases List.mem_append.mp h2 with h3 | h3
        · have hdc : d ∈ (splitCoreEol content).1 :=
            (List.dropWhile_sublist isSpTab).subset h3
          have : d ∈ content := by
            rw [← sce_join content]
            exact List.mem_append_left _ hdc
          exact hbf d this
        · have : d ∈ content := by
            rw [← sce_join content]
            exact List.mem_append_right _ h3
          exact hbf d this

theorem transform_line_head (l : List Char) :
    transform_line l = l ∨ ∃ z, transform_line l = FW :: z := by
  rcases transform_line_eq l with ⟨h, _⟩ | ⟨h, _, _⟩
  · exact Or.inl h
  · exact Or.inr ⟨_, h⟩

theorem startsLF_map {rest : List (List Char)}
    (h : startsLF (rest.map transform_line)) : startsLF rest := by
  rcases rest with _ | ⟨l, ls⟩
  · simp [startsLF] at h
  · simp only [List.map_cons] at h
    rcases transform_line_head l with he | ⟨z, he⟩
    · rw [he] at h
      rcases l with _ | ⟨c, cc⟩
      · simp [startsLF] at h
      · simpa [startsLF] using h
    · rw [he] at h
      simp only [startsLF] at h
      exact absurd h (by decide)

theorem linesWF_map (ls : List (List Char)) (h : LinesWF ls) :
    LinesWF (ls.map transform_line) := by
  induction h with
  | nil => exact LinesWF.nil
  | single content hne hbf =>
    obtain ⟨hne', hbf'⟩ := transform_line_single content hne hbf
    simpa using LinesWF.single (transform_line content) hne' hbf'
  | cons content term rest hbf ht hcr hrest ih =>
    obtain ⟨content', hbf', heq⟩ := transform_line_chunk content term hbf ht
    simp only [List.map_cons]
    rw [heq]
    refine LinesWF.cons content' term _ hbf' ht ?_ ih
    intro hterm hLF
    exact hcr hterm (startsLF_map hLF)

/-- Splitting the concatenation of a well-formed line list recovers it. -/
theorem splitKE_flatten (ls : List (List Char)) (h : LinesWF ls) :
    splitLinesKE ls.flatten = ls := by
  induction h with
  | nil => simp [splitLinesKE]
  | single content hne hbf =>
    simp only [List.flatten_cons, List.flatten_nil, List.append_nil]
    exact splitKE_breakFree content hne hbf
  | cons content term rest hbf ht hcr hrest ih =>
    have hside : term = ['\r'] → ∀ t, rest.flatten ≠ '\n' :: t := by
      intro hterm t hflat
      exact hcr hterm (flatten_startsLF hrest hflat)
    simp only [List.flatten_cons]
    rw [List.append_assoc, splitKE_chunk content term _ hbf ht hside, ih]

/-- Splitting the output of process_text_lines gives exactly the transformed
lines of the input. -/
theorem splitKE_process (s : List Char) :
    splitLinesKE (process_text_lines s) = (splitLinesKE s).map transform_line := by
  by_cases hs : s = []
  · subst hs
    simp [process_text_lines, splitLinesKE]
  · unfold process_text_lines
    rw [if_neg hs]
    exact splitKE_flatten _ (linesWF_map _ (linesWF_splitKE s))

/-- C1: applying the flat-text line transform twice yields the same result
as applying it once, for every input text. -/
theorem c1_process_text_lines_idempotent (s : List Char) :
    process_text_lines (process_text_lines s) = process_text_lines s := by
  by_cases hs : s = []
  · subst hs
    simp [process_text_lines]
  · by_cases hp : process_text_lines s = []
    · rw [hp]
      simp [process_text_lines]
    · conv_lhs => rw [process_text_lines]
      rw [if_neg hp, splitKE_process s, List.map_map]
      have hcongr : ∀ l ∈ splitLinesKE s,
          (transform_line ∘ transform_line) l = transform_line l :=
        fun l _ => transform_line_idem l
      rw [List.map_congr_left hcongr, process_text_lines, if_neg hs]

/-- The terminator of a line, as separated by the per-line transform. -/
def lineTerminator (l : List Char) : List Char := (splitCoreEol l).2

/-- C2: the transform preserves the number of lines and every line
terminator byte sequence. -/
theorem c2_line_count_and_terminators (s : List Char) :
    (splitLinesKE (process_text_lines s)).length = (splitLinesKE s).length ∧
    (splitLinesKE (process_text_lines s)).map lineTerminator =
      (splitLinesKE s).map lineTerminator := by
  rw [splitKE_process s]
  refine ⟨by simp, ?_⟩
  rw [List.map_map]
  refine List.map_congr_left fun l _ => ?_
  show lineTerminator (transform_line l) = lineTerminator l
  unfold lineTerminator
  exact transform_line_eol l

/-! ### Leading ASCII whitespace before an embedded marker (claim C10) -/

/-- C10 counterexample: a line whose content is an ASCII space followed by
the two-marker prefix and nothing else is entirely whitespace (U+3000 is
whitespace), so the transform leaves it unchanged rather than stripping the
space and prepending the prefix; the result does not start with four
full-width spaces. -/
theorem c10_counterexample :
    transform_line [' ', FW, FW] = [' ', FW, FW] ∧
    (transform_line [' ', FW, FW]).take 4 ≠ [FW, FW, FW, FW] := by
  decide

/-- C10 amended: for a line whose content starts with ASCII spaces or tabs
followed by the two-marker prefix, and which contains at least one
non-whitespace character, the transform strips the ASCII whitespace and
prepends the prefix again, so the line now starts with four full-width
spaces; the terminator is preserved. -/
theorem c10_strip_then_mark (a b eol : List Char) (ha : a ≠ [])
    (hsp : ∀ c ∈ a, isSpTab c = true)
    (hws : (a ++ FW :: FW :: b).all pyIsSpace = false)
    (hbf : breakFree b)
    (heol : eol = [] ∨ eol = ['\n'] ∨ eol = ['\r'] ∨ eol = ['\r', '\n']) :
    transform_line (a ++ (FW :: FW :: b) ++ eol) =
      FW :: FW :: FW :: FW :: (b ++ eol) := by
  have hlast : ∀ x : Char, isLineBreak x = true →
      (a ++ FW :: FW :: b).getLast? ≠ some x := by
    intro x hx
    rw [List.getLast?_append]
    rcases b with _ | ⟨z, zs⟩
    · intro hh
      simp at hh
      rw [← hh] at hx
      exact absurd hx (by decide)
    · rw [List.getLast?_cons_cons, List.getLast?_cons_cons]
      have := breakFree_getLast hbf hx
      intro hh
      apply this
      cases hzz : (z :: zs).getLast? with
      | none => simp at hzz
      | some w =>
        rw [hzz] at hh
        simp at hh
        rw [hh]
  have hsce : splitCoreEol ((a ++ FW :: FW :: b) ++ eol) =
      (a ++ FW :: FW :: b, eol) := by
    rcases heol with h | h | h | h <;> subst h
    · simpa using sce_no_term _ (hlast '\n' (by decide)) (hlast '\r' (by decide))
    · exact sce_append_lf _ (hlast '\r' (by decide))
    · exact sce_append_cr _
    · exact sce_append_crlf _
  have hsw : startsWithFW2 (a ++ FW :: FW :: b) = false := by
    rcases a with _ | ⟨a0, a'⟩
    · exact absurd rfl ha
    · have ha0 : isSpTab a0 = true := hsp a0 (by simp)
      have ha0FW : ¬ (a0 = FW) := by
        intro hh
        rw [hh] at ha0
        exact absurd ha0 (by decide)
      rcases ht : a' ++ FW :: FW :: b with _ | ⟨t0, t1⟩
      · simp at ht
      · simp only [List.cons_append, ht, startsWithFW2]
        simp [ha0FW]
  have hstrip : lstripSpTab (a ++ FW :: FW :: b) = FW :: FW :: b := by
    unfold lstripSpTab
    rw [List.dropWhile_append]
    have hanil : a.dropWhile isSpTab = [] := by
      rw [List.dropWhile_eq_nil_iff]
      exact fun c hc => hsp c hc
    rw [hanil]
    simp [List.dropWhile_cons, show isSpTab FW = false from by decide]
  unfold transform_line
  rw [hsce]
  simp only [hws, hsw, hstrip]
  simp

theorem c10_strip_then_mark_witness :
    transform_line ([' '] ++ (FW :: FW :: ['x']) ++ []) =
      FW :: FW :: FW :: FW :: (['x'] ++ []) :=
  c10_strip_then_mark [' '] ['x'] [] (by decide) (by decide) (by decide)
    (by unfold breakFree; decide) (Or.inl rfl)

/-! ### The .docx document model -/

/-- A paragraph of the document model: a style name and the ordered run
texts.  The derived plain text is the concatenation of the run texts. -/
structure DocParagraph where
  style : String
  runs : List (List Char)
deriving DecidableEq

/-- python-docx paragraph.text: concatenation of the run texts. -/
def paragraphText (p : DocParagraph) : List Char := p.runs.flatten

/-- The fixed multi-locale heading keywords of the source. -/
def HEADING_KEYWORDS : List (List Char) :=
  ["Heading".data, "标题".data, "Заголовок".data, "Überschrift".data,
    "Rubrik".data]

/-- needle occurs in haystack as a contiguous subsequence, as the Python
expression needle in name for strings. -/
def listStartsWith : List Char → List Char → Bool
  | _, [] => true
  | [], _ :: _ => false
  | a :: as, b :: bs => a == b && listStartsWith as bs

def containsSeq (needle : List Char) : List Char → Bool
  | [] => listStartsWith [] needle
  | c :: t => listStartsWith (c :: t) needle || containsSeq needle t

/-- is_heading_style: the style name contains one of the heading keywords. -/
def is_heading_style (style : String) : Bool :=
  HEADING_KEYWORDS.any (fun k => containsSeq k style.data)

/-- paragraph_has_text: the paragraph text is not empty after strip. -/
def paragraph_has_text (p : DocParagraph) : Bool :=
  !(paragraphText p).all pyIsSpace

/-- The fix applied to each text segment following a soft line break:
nonempty segments not already marked get stripped and marked. -/
def fixTailPart (s : List Char) : List Char :=
  if s = [] then s
  else if startsWithFW2 s then s
  else FW :: FW :: lstripSpTab s

/-- Python text.split(chr(10)): split on every LF, keeping empty parts. -/
def splitOnLF : List Char → List (List Char)
  | [] => [[]]
  | c :: t =>
    if c = '\n' then [] :: splitOnLF t
    else
      match splitOnLF t with
      | [] => [[c]]
      | p :: ps => (c :: p) :: ps

/-- Python chr(10).join(parts). -/
def joinLF : List (List Char) → List Char
  | [] => []
  | [p] => p
  | p :: q :: ps => p ++ '\n' :: joinLF (q :: ps)

/-- The soft-line-break pass of ensure_fw2_at_paragraph_start applied to one
run text: if it contains a LF, every segment after a break that is nonempty
and not already marked gets the marker. -/
def fixSoftBreaks (t : List Char) : List Char :=
  if t.contains '\n' then
    match splitOnLF t with
    | [] => t
    | p0 :: ps => joinLF (p0 :: ps.map fixTailPart)
  else t

/-- ensure_fw2_at_paragraph_start: skip empty or heading paragraphs and
already-marked text; otherwise mark the first run (or append a marker run
when there are no runs) and then fix soft line breaks inside every run. -/
def ensure_fw2_at_paragraph_start (p : DocParagraph) : DocParagraph :=
  if !paragraph_has_text p then p
  else if is_heading_style p.style then p
  else if startsWithFW2 (paragraphText p) then p
  else
    let runs1 :=
      match p.runs with
      | [] => [[FW, FW]]
      | r0 :: rest => (FW :: FW :: lstripSpTab r0) :: rest
    { p with runs := runs1.map fixSoftBreaks }

/-- A document: top-level paragraphs and tables (rows of cells of
paragraphs). -/
structure DocxDocument where
  paragraphs : List DocParagraph
  tables : List (List (List (List DocParagraph)))
deriving DecidableEq

/-- process_docx_file, restricted to its mutation of the document object:
mutate every body paragraph, then every paragraph of every table cell. -/
def process_docx_mutate (d : DocxDocument) : DocxDocument :=
  { paragraphs := d.paragraphs.map ensure_fw2_at_paragraph_start,
    tables := d.tables.map (fun t =>
      t.map (fun row => row.map (fun cell =>
        cell.map ensure_fw2_at_paragraph_start))) }

example :
    ensure_fw2_at_paragraph_start ⟨"Normal", [" hi".data, "there".data]⟩ =
      ⟨"Normal", ["　　hi".data, "there".data]⟩ := by decide

example :
    ensure_fw2_at_paragraph_start ⟨"Heading 1", ["hi".data]⟩ =
      ⟨"Heading 1", ["hi".data]⟩ := by decide

example :
    ensure_fw2_at_paragraph_start ⟨"Normal", ["a\nb".data]⟩ =
      ⟨"Normal", ["　　a\n　　b".data]⟩ := by decide

/-! ### Idempotence of the paragraph mutator -/

theorem isSpTab_isSpace {c : Char} (h : isSpTab c = true) : pyIsSpace c = true := by
  simp [isSpTab] at h
  rcases h with h | h <;> subst h <;> decide

theorem mem_lstrip {d : Char} (hd : pyIsSpace d = false) {x : List Char}
    (h : d ∈ x) : d ∈ lstripSpTab x := by
  unfold lstripSpTab
  have hx := List.takeWhile_append_dropWhile (p := isSpTab) (l := x)
  rw [← hx] at h
  rcases List.mem_append.mp h with h1 | h1
  · exfalso
    have h2 := isSpTab_isSpace (List.mem_takeWhile_imp h1)
    rw [h2] at hd
    exact absurd hd (by simp)
  · exact h1

theorem splitOnLF_ne_nil (t : List Char) : splitOnLF t ≠ [] := by
  rcases t with _ | ⟨c, t⟩
  · simp [splitOnLF]
  · by_cases hc : c = '\n'
    · simp [splitOnLF, hc]
    · rcases h : splitOnLF t with _ | ⟨p, ps⟩ <;> simp [splitOnLF, hc, h]

theorem splitOnLF_cons_LF (t : List Char) :
    splitOnLF ('\n' :: t) = [] :: splitOnLF t := by
  simp [splitOnLF]

theorem splitOnLF_cons_nonLF {c : Char} (hc : ¬ c = '\n') {t p : List Char}
    {ps : List (List Char)} (h : splitOnLF t = p :: ps) :
    splitOnLF (c :: t) = (c :: p) :: ps := by
  simp [splitOnLF, hc, h]

theorem mem_joinLF {d : Char} {q : List Char} {ps : List (List Char)}
    (hq : q ∈ ps) (hd : d ∈ q) : d ∈ joinLF ps := by
  induction ps with
  | nil => simp at hq
  | cons p rest ih =>
    rcases List.mem_cons.mp hq with h | h
    · subst h
      rcases rest with _ | ⟨r, rs⟩
      · simpa [joinLF] using hd
      · simp only [joinLF]
        exact List.mem_append_left _ hd
    · rcases rest with _ | ⟨r, rs⟩
      · simp at h
      · simp only [joinLF]
        refine List.mem_append_right _ ?_
        exact List.mem_cons_of_mem _ (ih h)

theorem mem_splitOnLF {d : Char} (hd : ¬ d = '\n') :
    ∀ t : List Char, d ∈ t → ∃ q ∈ splitOnLF t, d ∈ q := by
  intro t
  induction t with
  | nil => simp
  | cons c t ih =>
    intro h
    by_cases hc : c = '\n'
    · subst hc
      have hd' : d ∈ t := by
        rcases List.mem_cons.mp h with h1 | h1
        · exact absurd h1 hd
        · exact h1
      obtain ⟨q, hq, hdq⟩ := ih hd'
      exact ⟨q, by rw [splitOnLF_cons_LF]; exact List.mem_cons_of_mem _ hq, hdq⟩
    · rcases h' : splitOnLF t with _ | ⟨p, ps⟩
      · exact absurd h' (splitOnLF_ne_nil t)
      · rcases List.mem_cons.mp h with h1 | h1
        · subst h1
          exact ⟨d :: p, by rw [splitOnLF_cons_nonLF hc h']; simp, by simp⟩
        · obtain ⟨q, hq, hdq⟩ := ih h1
          rw [h'] at hq
          rcases List.mem_cons.mp hq with h2 | h2
          · subst h2
            exact ⟨c :: q, by rw [splitOnLF_cons_nonLF hc h']; simp,
              List.mem_cons_of_mem _ hdq⟩
          · refine ⟨q, ?_, hdq⟩
            rw [splitOnLF_cons_nonLF hc h']
            exact List.mem_cons_of_mem _ h2

theorem mem_fixTailPart {d : Char} (hd : pyIsSpace d = false) {s : List Char}
    (h : d ∈ s) : d ∈ fixTailPart s := by
  unfold fixTailPart
  by_cases h1 : s = []
  · simp [h1] at h
  · rw [if_neg h1]
    by_cases h2 : startsWithFW2 s = true
    · simpa [h2] using h
    · rw [if_neg h2]
      exact List.mem_cons_of_mem _ (List.mem_cons_of_mem _ (mem_lstrip hd h))

theorem mem_fixSoftBreaks {d : Char} (hd : pyIsSpace d = false) {t : List Char}
    (h : d ∈ t) : d ∈ fixSoftBreaks t := by
  unfold fixSoftBreaks
  by_cases hc : t.contains '\n'
  · rw [if_pos hc]
    have hdn : ¬ d = '\n' := by
      intro hh
      subst hh
      exact absurd hd (by decide)
    obtain ⟨q, hq, hdq⟩ := mem_splitOnLF hdn t h
    rcases h' : splitOnLF t with _ | ⟨p, ps⟩
    · exact absurd h' (splitOnLF_ne_nil t)
    · rw [h'] at hq
      rcases List.mem_cons.mp hq with h2 | h2
      · subst h2
        exact mem_joinLF (List.mem_cons_self _ _) hdq
      · exact mem_joinLF
          (List.mem_cons_of_mem _ (List.mem_map_of_mem _ h2))
          (mem_fixTailPart hd hdq)
  · rwa [if_neg hc]

theorem fixSoftBreaks_marked (A : List Char) :
    ∃ B, fixSoftBreaks (FW :: FW :: A) = FW :: FW :: B := by
  unfold fixSoftBreaks
  by_cases h : (FW :: FW :: A).contains '\n'
  · rw [if_pos h]
    rcases h' : splitOnLF A with _ | ⟨p, ps⟩
    · exact absurd h' (splitOnLF_ne_nil A)
    · have h2 : splitOnLF (FW :: A) = (FW :: p) :: ps :=
        splitOnLF_cons_nonLF (by decide) h'
      have h3 : splitOnLF (FW :: FW :: A) = (FW :: FW :: p) :: ps :=
        splitOnLF_cons_nonLF (by decide) h2
      rw [h3]
      rcases hps : ps.map fixTailPart with _ | ⟨q, qs⟩
      · exact ⟨p, by simp [joinLF, hps]⟩
      · exact ⟨p ++ '\n' :: joinLF (q :: qs), by simp [joinLF, hps]⟩
  · rw [if_neg h]
    exact ⟨A, rfl⟩

theorem ensure_skip_no_text (p : DocParagraph)
    (h : paragraph_has_text p = false) :
    ensure_fw2_at_paragraph_start p = p := by
  unfold ensure_fw2_at_paragraph_start
  simp [h]

theorem ensure_skip_heading (p : DocParagraph)
    (h : is_heading_style p.style = true) :
    ensure_fw2_at_paragraph_start p = p := by
  unfold ensure_fw2_at_paragraph_start
  by_cases h1 : paragraph_has_text p <;> simp [h1, h]

theorem ensure_skip_marked (p : DocParagraph)
    (h : startsWithFW2 (paragraphText p) = true) :
    ensure_fw2_at_paragraph_start p = p := by
  unfold ensure_fw2_at_paragraph_start
  by_cases h1 : paragraph_has_text p
  · by_cases h2 : is_heading_style p.style <;> simp [h1, h2, h]
  · simp [h1]

theorem ensure_mutate (p : DocParagraph) (r0 : List Char)
    (rest : List (List Char)) (hruns : p.runs = r0 :: rest)
    (h1 : paragraph_has_text p = true)
    (h2 : is_heading_style p.style = false)
    (h3 : startsWithFW2 (paragraphText p) = false) :
    ensure_fw2_at_paragraph_start p =
      { p with runs := fixSoftBreaks (FW :: FW :: lstripSpTab r0) ::
          rest.map fixSoftBreaks } := by
  unfold ensure_fw2_at_paragraph_start
  simp [h1, h2, h3, hruns]

/-- One application of the mutator fully settles a paragraph: a second
application changes nothing. -/
theorem ensure_fw2_idem (p : DocParagraph) :
    ensure_fw2_at_paragraph_start (ensure_fw2_at_paragraph_start p) =
      ensure_fw2_at_paragraph_start p := by
  by_cases h1 : paragraph_has_text p = true
  · by_cases h2 : is_heading_style p.style = true
    · have he := ensure_skip_heading p h2
      rw [he]
      exact he
    · by_cases h3 : startsWithFW2 (paragraphText p) = true
      · have he := ensure_skip_marked p h3
        rw [he]
        exact he
      · rcases hruns : p.runs with _ | ⟨r0, rest⟩
        · exfalso
          unfold paragraph_has_text paragraphText at h1
          rw [hruns] at h1
          simp at h1
        · have hq := ensure_mutate p r0 rest hruns h1 (by simpa using h2)
            (by simpa using h3)
          obtain ⟨B, hB⟩ := fixSoftBreaks_marked (lstripSpTab r0)
          have hqtext : paragraphText (ensure_fw2_at_paragraph_start p) =
              FW :: FW :: (B ++ (rest.map fixSoftBreaks).flatten) := by
            rw [hq]
            unfold paragraphText
            simp [hB]
          have hsw : startsWithFW2
              (paragraphText (ensure_fw2_at_paragraph_start p)) = true := by
            rw [hqtext]
            simp [startsWithFW2]
          exact ensure_skip_marked _ hsw
  · have he := ensure_skip_no_text p (by simpa using h1)
    rw [he]
    exact he

/-- C4: running the document-run mutator a second time over the output of
the first run changes no paragraph text, neither in the body nor in any
table cell. -/
theorem c4_document_mutator_idempotent (d : DocxDocument) :
    (process_docx_mutate (process_docx_mutate d)).paragraphs.map paragraphText =
      (process_docx_mutate d).paragraphs.map paragraphText ∧
    (process_docx_mutate (process_docx_mutate d)).tables.map
        (fun t => t.map (fun row => row.map (fun cell => cell.map paragraphText))) =
      (process_docx_mutate d).tables.map
        (fun t => t.map (fun row => row.map (fun cell => cell.map paragraphText))) := by
  have hidem : process_docx_mutate (process_docx_mutate d) =
      process_docx_mutate d := by
    unfold process_docx_mutate
    simp only [List.map_map]
    congr 1
    · exact List.map_congr_left fun p _ => ensure_fw2_idem p
    · refine List.map_congr_left fun t _ => ?_
      simp only [Function.comp, List.map_map]
      refine List.map_congr_left fun row _ => ?_
      simp only [Function.comp, List.map_map]
      refine List.map_congr_left fun cell _ => ?_
      simp only [Function.comp, List.map_map]
      exact List.map_congr_left fun p _ => ensure_fw2_idem p
  rw [hidem]
  exact ⟨rfl, rfl⟩

/-- C7: a paragraph whose style name contains a heading keyword is never
mutated, whatever its text. -/
theorem c7_heading_paragraph_unchanged (p : DocParagraph)
    (h : is_heading_style p.style = true) :
    ensure_fw2_at_paragraph_start p = p := by
  by_cases h1 : paragraph_has_text p = true
  · exact ensure_skip_heading p h
  · exact ensure_skip_no_text p (by simpa using h1)

theorem c7_heading_paragraph_unchanged_witness :
    ensure_fw2_at_paragraph_start ⟨"Heading 1", ["abc".data]⟩ =
      ⟨"Heading 1", ["abc".data]⟩ :=
  c7_heading_paragraph_unchanged _ (by decide)

/-- C8 counterexample: a paragraph with no runs has empty derived text, so
the mutator skips it entirely: no run is appended and the resulting text
does not start with the marker prefix. -/
theorem c8_counterexample :
    ensure_fw2_at_paragraph_start ⟨"Normal", []⟩ = ⟨"Normal", []⟩ ∧
    startsWithFW2 (paragraphText
      (ensure_fw2_at_paragraph_start ⟨"Normal", []⟩)) = false := by
  decide

/-- C8 amended: a paragraph with no runs at all is left completely
unchanged by the mutator, because the empty-text skip fires before the
append-a-run branch, which is therefore unreachable. -/
theorem c8_no_runs_skipped (p : DocParagraph) (h : p.runs = []) :
    ensure_fw2_at_paragraph_start p = p := by
  refine ensure_skip_no_text p ?_
  unfold paragraph_has_text paragraphText
  rw [h]
  simp

theorem c8_no_runs_skipped_witness :
    ensure_fw2_at_paragraph_start ⟨"SomeStyle", []⟩ = ⟨"SomeStyle", []⟩ :=
  c8_no_runs_skipped _ rfl

/-! ### Encoding detection -/

/-- data.startswith(pre) on byte buffers. -/
def bytesStartWith : List Nat → List Nat → Bool
  | _, [] => true
  | [], _ :: _ => false
  | a :: as, b :: bs => a == b && bytesStartWith as bs

theorem bytesStartWith_eq (data pre : List Nat) :
    bytesStartWith data pre = true ↔ ∃ rest, data = pre ++ rest := by
  induction pre generalizing data with
  | nil =>
    simp [bytesStartWith]
  | cons b bs ih =>
    rcases data with _ | ⟨a, as⟩
    · simp [bytesStartWith]
    · simp only [bytesStartWith, Bool.and_eq_true, beq_iff_eq, ih,
        List.cons_append]
      constructor
      · rintro ⟨hab, rest, hr⟩
        exact ⟨rest, by rw [hab, hr]⟩
      · rintro ⟨rest, hr⟩
        injection hr with h1 h2
        exact ⟨h1, rest, h2⟩

/-- detect_encoding: BOM tests in source order, then the statistical
guesser, then the utf-8 fallback.  The guesser is a parameter returning
either a failure (the except branch of the source) or the best result with
its possibly-empty encoding label; the source catches every guesser
failure, which the match models. -/
def detect_encoding (g : List Nat → Except Unit (Option String))
    (data : List Nat) : String :=
  if bytesStartWith data [0xef, 0xbb, 0xbf] then "utf-8-sig"
  else if bytesStartWith data [0xff, 0xfe, 0x00, 0x00] ||
      bytesStartWith data [0x00, 0x00, 0xfe, 0xff] then
    (if bytesStartWith data [0xff, 0xfe, 0x00, 0x00] then "utf-32" else "utf-32")
  else if bytesStartWith data [0xff, 0xfe] then "utf-16-le"
  else if bytesStartWith data [0xfe, 0xff] then "utf-16-be"
  else
    match g data with
    | Except.ok (some enc) => if enc ≠ "" then enc else "utf-8"
    | _ => "utf-8"

/-- C5: the BOM tests apply in strict priority order (UTF-8, then the
4-byte UTF-32 patterns, then the 2-byte UTF-16 ones), a buffer starting
FF FE 00 00 is classified utf-32 and never utf-16-le, the statistical
guess is used only when no BOM matches and only when it yields a nonempty
label, and a failing guesser always falls back to utf-8 instead of
propagating. -/
theorem c5_detect_encoding_priority :
    (∀ g rest, detect_encoding g (0xef :: 0xbb :: 0xbf :: rest) = "utf-8-sig") ∧
    (∀ g rest, detect_encoding g (0xff :: 0xfe :: 0x00 :: 0x00 :: rest) = "utf-32") ∧
    (∀ g rest, detect_encoding g (0x00 :: 0x00 :: 0xfe :: 0xff :: rest) = "utf-32") ∧
    (∀ g data, bytesStartWith data [0xff, 0xfe] = true →
      bytesStartWith data [0xff, 0xfe, 0x00, 0x00] = false →
      detect_encoding g data = "utf-16-le") ∧
    (∀ g rest, detect_encoding g (0xfe :: 0xff :: rest) = "utf-16-be") ∧
    (∀ g data, bytesStartWith data [0xef, 0xbb, 0xbf] = false →
      bytesStartWith data [0xff, 0xfe, 0x00, 0x00] = false →
      bytesStartWith data [0x00, 0x00, 0xfe, 0xff] = false →
      bytesStartWith data [0xff, 0xfe] = false →
      bytesStartWith data [0xfe, 0xff] = false →
      (detect_encoding g data =
        match g data with
        | Except.ok (some enc) => if enc ≠ "" then enc else "utf-8"
        | _ => "utf-8") ∧
      (g data = Except.error () → detect_encoding g data = "utf-8") ∧
      (g data = Except.ok none → detect_encoding g data = "utf-8") ∧
      (g data = Except.ok (some "") → detect_encoding g data = "utf-8") ∧
      (∀ enc, enc ≠ "" → g data = Except.ok (some enc) →
        detect_encoding g data = enc)) := by
  refine ⟨?_, ?_, ?_, ?_, ?_, ?_⟩
  · intro g rest
    unfold detect_encoding
    simp [bytesStartWith]
  · intro g rest
    unfold detect_encoding
    simp [bytesStartWith]
  · intro g rest
    unfold detect_encoding
    simp [bytesStartWith]
  · intro g data h16 h32
    obtain ⟨rest, hdata⟩ := (bytesStartWith_eq data [0xff, 0xfe]).mp h16
    subst hdata
    unfold detect_encoding
    rw [h32]
    simp [bytesStartWith]
  · intro g rest
    unfold detect_encoding
    simp [bytesStartWith]
  · intro g data h1 h2 h3 h4 h5
    have hbase : detect_encoding g data =
        match g data with
        | Except.ok (some enc) => if enc ≠ "" then enc else "utf-8"
        | _ => "utf-8" := by
      unfold detect_encoding
      rw [h1, h2, h3, h4, h5]
      simp
    refine ⟨hbase, ?_, ?_, ?_, ?_⟩
    · intro hg
      rw [hbase, hg]
    · intro hg
      rw [hbase, hg]
    · intro hg
      rw [hbase, hg]
      simp
    · intro enc hne hg
      rw [hbase, hg]
      simp [hne]

theorem c5_detect_encoding_priority_witness :
    detect_encoding (fun _ => Except.error ()) [0xff, 0xfe, 0x48, 0x00] =
      "utf-16-le" :=
  c5_detect_encoding_priority.2.2.2.1 (fun _ => Except.error ())
    [0xff, 0xfe, 0x48, 0x00] (by decide) (by decide)

/-! ### Output path resolution -/

def lastDotPosAux : List Char → Nat → Option Nat
  | [], _ => none
  | c :: t, i =>
    match lastDotPosAux t (i + 1) with
    | some j => some j
    | none => if c = '.' then some i else none

def lastDotPos (l : List Char) : Option Nat := lastDotPosAux l 0

/-- Path(name).stem and Path(name).suffix for a plain file name: split at
the last dot when it is neither the first nor the last character. -/
def pathStemExt (name : String) : String × String :=
  match lastDotPos name.data with
  | none => (name, "")
  | some i =>
    if 0 < i ∧ i < name.data.length - 1 then
      (⟨name.data.take i⟩, ⟨name.data.drop i⟩)
    else (name, "")

def pathStem (name : String) : String := (pathStemExt name).1

def pathSuffix (name : String) : String := (pathStemExt name).2

example : pathStem "report.txt" = "report" := by decide

example : pathSuffix "report.txt" = ".txt" := by decide

/-- The candidate sequence of resolve_output_path: name.ext, then
name_indent.ext, then name_indent1.ext, name_indent2.ext, and so on. -/
def candidateName (base ext : String) : Nat → String
  | 0 => base ++ ext
  | 1 => base ++ "_indent" ++ ext
  | Nat.succ (Nat.succ k) => base ++ "_indent" ++ toString (k + 1) ++ ext

/-- The retry loop of resolve_output_path, with the filesystem existence
check abstracted as the occupied predicate and the unbounded while loop
given explicit fuel. -/
def resolveFrom (occ : String → Bool) (base ext : String) :
    Nat → Nat → Option String
  | _, 0 => none
  | k, fuel + 1 =>
    if occ (candidateName base ext k) then resolveFrom occ base ext (k + 1) fuel
    else some (candidateName base ext k)

/-- resolve_output_path: split the source name into stem and suffix and
return the first unoccupied candidate. -/
def resolve_output_path (occ : String → Bool) (srcName : String)
    (fuel : Nat) : Option String :=
  resolveFrom occ (pathStem srcName) (pathSuffix srcName) 0 fuel

theorem resolveFrom_spec (occ : String → Bool) (base ext : String) :
    ∀ fuel k0 k, k0 ≤ k → k < k0 + fuel →
      (∀ j, k0 ≤ j → j < k → occ (candidateName base ext j) = true) →
      occ (candidateName base ext k) = false →
      resolveFrom occ base ext k0 fuel = some (candidateName base ext k) := by
  intro fuel
  induction fuel with
  | zero =>
    intro k0 k h1 h2 _ _
    omega
  | succ fuel ih =>
    intro k0 k h1 h2 hbusy hfree
    unfold resolveFrom
    by_cases h : occ (candidateName base ext k0) = true
    · rw [if_pos h]
      have hne : k0 ≠ k := by
        intro hh
        rw [hh, hfree] at h
        cases h
      refine ih (k0 + 1) k (by omega) (by omega) ?_ hfree
      intro j hj1 hj2
      exact hbusy j (by omega) hj2
    · have hk : k0 = k := by
        by_contra hne
        exact h (hbusy k0 (Nat.le_refl _) (by omega))
      rw [if_neg h, hk]

/-- C6: resolve_output_path tries name.ext, name_indent.ext,
name_indent1.ext, name_indent2.ext, ... in order and returns the first
candidate the occupied predicate rejects. -/
theorem c6_resolve_output_path_first_free (occ : String → Bool) (src : String)
    (k fuel : Nat) (hfuel : k < fuel)
    (hbusy : ∀ j, j < k →
      occ (candidateName (pathStem src) (pathSuffix src) j) = true)
    (hfree : occ (candidateName (pathStem src) (pathSuffix src) k) = false) :
    resolve_output_path occ src fuel =
      some (candidateName (pathStem src) (pathSuffix src) k) := by
  unfold resolve_output_path
  exact resolveFrom_spec occ _ _ fuel 0 k (Nat.zero_le _) (by omega)
    (fun j _ hj => hbusy j hj) hfree

/-- C6 witness: a directory holding report.txt, report_indent.txt and
report_indent1.txt resolves source report.txt to report_indent2.txt. -/
theorem c6_resolve_output_path_first_free_witness :
    resolve_output_path
      (fun s => (["report.txt", "report_indent.txt",
        "report_indent1.txt"] : List String).contains s)
      "report.txt" 4 = some "report_indent2.txt" := by
  have h := c6_resolve_output_path_first_free
    (fun s => (["report.txt", "report_indent.txt",
      "report_indent1.txt"] : List String).contains s)
    "report.txt" 3 4 (by omega) (by decide) (by decide)
  rw [h]
  decide

/-! ### The batch worker -/

/-- TaskResult of the source: per-file outcome. -/
structure TaskResult where
  src : String
  dst : Option String
  ok : Bool
  message : String
deriving DecidableEq

/-- The externally observable emissions of ProcessorWorker.run. -/
inductive WorkerEvent
  | progress (r : TaskResult)
  | finishedAll
deriving DecidableEq

/-- Python str.lower on the characters of a string. -/
def strLower (s : String) : String := String.mk (s.data.map Char.toLower)

/-- The body of the per-file loop of ProcessorWorker.run: dispatch on the
lowercased extension; a non-txt, non-docx extension raises, and every
pipeline failure for the file is caught and turned into a failure
TaskResult for that file only. -/
def processOne (procTxt procDocx : String → Except String String)
    (f : String) : TaskResult :=
  let ext := strLower (pathSuffix f)
  let r : Except String String :=
    if ext = ".txt" then procTxt f
    else if ext = ".docx" then procDocx f
    else Except.error "Unsupported extension"
  match r with
  | Except.ok dst => ⟨f, some dst, true, "Done"⟩
  | Except.error e => ⟨f, none, false, e⟩

/-- ProcessorWorker.run: one progress event per file in input order, then
the single batch-completion event. -/
def workerRun (procTxt procDocx : String → Except String String)
    (files : List String) : List WorkerEvent :=
  (files.map (fun f => WorkerEvent.progress (processOne procTxt procDocx f))) ++
    [WorkerEvent.finishedAll]

/-- C9: each file yields exactly one result in order, an unsupported
extension yields the typed failure, a pipeline exception becomes a failure
result for that file only (results of other files are untouched by
construction), and the completion signal is the single last event, emitted
after every file has been attempted. -/
theorem c9_worker_per_file_results (pt pd : String → Except String String)
    (files : List String) :
    (workerRun pt pd files).length = files.length + 1 ∧
    (workerRun pt pd files).getLast? = some WorkerEvent.finishedAll ∧
    (∀ i (h : i < files.length),
      (workerRun pt pd files)[i]? =
        some (WorkerEvent.progress (processOne pt pd files[i]))) ∧
    (∀ f, strLower (pathSuffix f) ≠ ".txt" → strLower (pathSuffix f) ≠ ".docx" →
      processOne pt pd f = ⟨f, none, false, "Unsupported extension"⟩) ∧
    (∀ f e, strLower (pathSuffix f) = ".txt" → pt f = Except.error e →
      processOne pt pd f = ⟨f, none, false, e⟩) := by
  refine ⟨?_, ?_, ?_, ?_, ?_⟩
  · simp [workerRun]
  · unfold workerRun
    exact List.getLast?_concat _
  · intro i h
    unfold workerRun
    rw [List.getElem?_append_left (by simpa using h)]
    simp [h]
  · intro f h1 h2
    unfold processOne
    simp [h1, h2]
  · intro f e h1 h2
    unfold processOne
    simp [h1, h2]

theorem c9_worker_per_file_results_witness :
    processOne (fun _ => Except.ok "out") (fun _ => Except.ok "out") "a.pdf" =
      ⟨"a.pdf", none, false, "Unsupported extension"⟩ :=
  (c9_worker_per_file_results (fun _ => Except.ok "out")
    (fun _ => Except.ok "out") ["a.pdf"]).2.2.2.1 "a.pdf" (by decide) (by decide)

/-! ### UTF-16 little-endian round trip (claim C3) -/

/-- Decode UTF-16 little-endian bytes with errors replace: pair bytes into
little-endian code units, combine surrogate pairs, replace malformed
sequences with U+FFFD.  The utf-16-le codec gives no special treatment to
a leading byte-order mark: the bytes FF FE decode to the character
U+FEFF, which stays in the text. -/
def utf16leDecode : List Nat → List Char
  | [] => []
  | [_] => [Char.ofNat 0xfffd]
  | b0 :: b1 :: rest =>
    let u := b0 % 256 + 256 * (b1 % 256)
    if 0xd800 ≤ u ∧ u ≤ 0xdbff then
      match rest with
      | [] => [Char.ofNat 0xfffd]
      | [b2] => Char.ofNat 0xfffd :: utf16leDecode [b2]
      | b2 :: b3 :: rest2 =>
        let u2 := b2 % 256 + 256 * (b3 % 256)
        if 0xdc00 ≤ u2 ∧ u2 ≤ 0xdfff then
          Char.ofNat (0x10000 + (u - 0xd800) * 0x400 + (u2 - 0xdc00)) ::
            utf16leDecode rest2
        else Char.ofNat 0xfffd :: utf16leDecode (b2 :: b3 :: rest2)
    else if 0xdc00 ≤ u ∧ u ≤ 0xdfff then Char.ofNat 0xfffd :: utf16leDecode rest
    else Char.ofNat u :: utf16leDecode rest

/-- Encode one character as UTF-16 little-endian bytes. -/
def utf16leEncodeChar (c : Char) : List Nat :=
  let n := c.toNat
  if n < 0x10000 then [n % 256, n / 256]
  else
    let m := n - 0x10000
    [(0xd800 + m / 0x400) % 256, (0xd800 + m / 0x400) / 256,
      (0xdc00 + m % 0x400) % 256, (0xdc00 + m % 0x400) / 256]

def utf16leEncode (s : List Char) : List Nat :=
  (s.map utf16leEncodeChar).flatten

/-- process_txt_file specialised to a source whose detected encoding is
utf-16-le: decode the raw bytes with that codec, run the line transform,
and encode the result with the same codec.  write_text with newline set to
the empty string performs no translation, and the utf-16-le codec writes
no byte-order mark of its own. -/
def process_txt_bytes_utf16le (data : List Nat) : List Nat :=
  utf16leEncode (process_text_lines (utf16leDecode data))

/-- C3 fails on the code: for the UTF-16LE file FF FE 48 00 (BOM followed
by the letter H) the detected encoding is utf-16-le, but the output bytes
are 00 30 00 30 FF FE 48 00: the markers are encoded before the former
byte-order mark, the file no longer starts with FF FE, and re-decoding
yields the marker prefix followed by an embedded U+FEFF character. -/
theorem c3_utf16le_bom_not_preserved :
    detect_encoding (fun _ => Except.error ()) [0xff, 0xfe, 0x48, 0x00] =
      "utf-16-le" ∧
    process_txt_bytes_utf16le [0xff, 0xfe, 0x48, 0x00] =
      [0x00, 0x30, 0x00, 0x30, 0xff, 0xfe, 0x48, 0x00] ∧
    (process_txt_bytes_utf16le [0xff, 0xfe, 0x48, 0x00]).take 2 ≠
      [0xff, 0xfe] ∧
    utf16leDecode (process_txt_bytes_utf16le [0xff, 0xfe, 0x48, 0x00]) =
      [FW, FW, Char.ofNat 0xfeff, 'H'] := by
  refine ⟨?_, ?_, ?_, ?_⟩ <;> decide
